import Mathlib

/- Verification of the keyword-matching core of app.py (resume keyword
   matcher).  Python strings are sequences of Unicode code points, so text is
   modelled as lists of natural-number code points; the ASCII case folding,
   whitespace handling and word characters used by the app are modelled
   exactly at that level. -/

abbrev Str := List Nat

def str (s : String) : Str := s.data.map Char.toNat

/- Python str.lower restricted to ASCII: code points 65..90 map to 97..122. -/
def lowerCp (c : Nat) : Nat := if 65 ≤ c ∧ c ≤ 90 then c + 32 else c

/- Python str.split() whitespace (ASCII): space, tab, LF, CR, VT, FF. -/
def isPySpaceCp (c : Nat) : Bool :=
  decide (c = 32 ∨ c = 9 ∨ c = 10 ∨ c = 13 ∨ c = 11 ∨ c = 12)

/- Python text.split(): maximal runs of non-whitespace characters, empty runs
   dropped.  The accumulator cur holds the current run, reversed. -/
def splitWordsAux (cur : Str) : Str → List Str
  | [] => if cur.isEmpty then [] else [cur.reverse]
  | c :: cs =>
    if isPySpaceCp c then
      if cur.isEmpty then splitWordsAux [] cs else cur.reverse :: splitWordsAux [] cs
    else splitWordsAux (c :: cur) cs

def splitWords (s : Str) : List Str := splitWordsAux [] s

/- " ".join(words): code point 32 is the space. -/
def joinWords : List Str → Str
  | [] => []
  | [w] => w
  | w :: ws => w ++ 32 :: joinWords ws

/- clean_text (app.py lines 90-98): lowercase, then split on whitespace and
   rejoin with single spaces. -/
def clean_text (text : Str) : Str := joinWords (splitWords (text.map lowerCp))

/- The Python substring operator: needle in hay. -/
def startsWithCp : Str → Str → Bool
  | [], _ => true
  | _ :: _, [] => false
  | x :: xs, y :: ys => (x == y) && startsWithCp xs ys

def containsSub (needle : Str) : Str → Bool
  | [] => startsWithCp needle []
  | c :: cs => startsWithCp needle (c :: cs) || containsSub needle cs

/- get_synonyms (app.py lines 100-114).  The WordNet collaborator is external
   to the repository: wn w = none models an unavailable dictionary or a lookup
   that raises (the except branch returns []); wn w = some synsets models
   wordnet.synsets(w), each synset given by the list of its lemma names. -/

def replaceUnderscore (s : Str) : Str := s.map (fun c => if c = 95 then 32 else c)

/- One iteration of the collecting loop.  The Python set is modelled as an
   insertion-ordered duplicate-free list; set iteration order is unspecified
   in Python and nothing downstream depends on it. -/
def synAdd (word : Str) (acc : List Str) (lemmaName : Str) : List Str :=
  let synonym := replaceUnderscore lemmaName
  if synonym ≠ word ∧ (splitWords synonym).length = 1 then
    if synonym ∈ acc then acc else acc ++ [synonym]
  else acc

def get_synonyms (wn : Str → Option (List (List Str))) (word : Str) : List Str :=
  match wn word with
  | none => []
  | some synsets =>
    (synsets.foldl (fun acc syn => syn.foldl (synAdd word) acc) []).take 3

/- categorize_keyword (app.py lines 116-157).  Every pattern in the three
   lists is either ".*core.*" (re.match succeeds iff core, whose own dots are
   single-character wildcards, occurs in the subject with no newline before
   the occurrence), ".*c1.*c2.*", or the anchored "^[a-z]+\+?$". -/

inductive Pat where
  | hasCore : Str → Pat
  | hasCore2 : Str → Str → Pat
  | azPlusOpt : Pat

/- A pattern character: 46 (the dot) matches anything but newline (10). -/
def patCharMatch (p c : Nat) : Bool := if p = 46 then !(c == 10) else p == c

def patAt : Str → Str → Bool
  | [], _ => true
  | _ :: _, [] => false
  | p :: ps, c :: cs => patCharMatch p c && patAt ps cs

/- re.match(".*pat.*", s): pat occurs at some position, every character
   before that position being matchable by the dot. -/
def patFind (pat : Str) : Str → Bool
  | [] => patAt pat []
  | c :: cs => patAt pat (c :: cs) || (!(c == 10) && patFind pat cs)

/- re.match(".*p1.*p2.*", s). -/
def patFindThen (p1 p2 : Str) : Str → Bool
  | [] => patAt p1 [] && patFind p2 []
  | c :: cs =>
    (patAt p1 (c :: cs) && patFind p2 (List.drop p1.length (c :: cs))) ||
      (!(c == 10) && patFindThen p1 p2 cs)

def isLowerAZCp (c : Nat) : Bool := decide (97 ≤ c ∧ c ≤ 122)

/- After the leading letter of "^[a-z]+\+?$": more letters, then an optional
   final plus sign (code point 43). -/
def azTail : Str → Bool
  | [] => true
  | [c] => (c == 43) || isLowerAZCp c
  | c :: cs => isLowerAZCp c && azTail cs

def azPlusOptMatch : Str → Bool
  | [] => false
  | c :: cs => isLowerAZCp c && azTail cs

/- re.match(pattern, keyword, re.IGNORECASE): the ASCII case fold is applied
   to the subject; all pattern literals are already lowercase. -/
def pyReMatchI (p : Pat) (w : Str) : Bool :=
  match p with
  | .hasCore core => patFind core (w.map lowerCp)
  | .hasCore2 c1 c2 => patFindThen c1 c2 (w.map lowerCp)
  | .azPlusOpt => azPlusOptMatch (w.map lowerCp)

def technical_patterns : List Pat :=
  [.hasCore (str ("programming")), .hasCore (str ("development")),
   .hasCore (str ("engineering")), .hasCore (str ("coding")),
   .hasCore (str ("algorithm")), .hasCore2 (str ("data")) (str ("structure")),
   .hasCore (str ("database")), .hasCore (str ("sql")),
   .hasCore (str ("python")), .hasCore (str ("java")),
   .hasCore (str ("javascript")), .hasCore (str ("react")),
   .hasCore (str ("node")), .hasCore (str ("machine.learning")),
   .hasCore (str ("ai")), .hasCore (str ("cloud")),
   .hasCore (str ("aws")), .hasCore (str ("azure")),
   .hasCore (str ("docker")), .hasCore (str ("kubernetes")),
   .hasCore (str ("devops")), .hasCore (str ("api")),
   .hasCore (str ("web")), .hasCore (str ("mobile")),
   .hasCore (str ("software")), .hasCore (str ("system")),
   .hasCore (str ("network")), .hasCore (str ("security"))]

def tools_patterns : List Pat :=
  [.azPlusOpt, .hasCore (str ("tool")), .hasCore (str ("framework")),
   .hasCore (str ("library")), .hasCore (str ("platform")),
   .hasCore (str ("git")), .hasCore (str ("jenkins")),
   .hasCore (str ("jira")), .hasCore (str ("excel")),
   .hasCore (str ("tableau")), .hasCore (str ("photoshop")),
   .hasCore (str ("figma")), .hasCore (str ("word")),
   .hasCore (str ("powerpoint"))]

def soft_patterns : List Pat :=
  [.hasCore (str ("communication")), .hasCore (str ("teamwork")),
   .hasCore (str ("leadership")), .hasCore (str ("problem.solving")),
   .hasCore (str ("critical.thinking")), .hasCore (str ("adaptability")),
   .hasCore (str ("creativity")), .hasCore (str ("time.management")),
   .hasCore (str ("collaboration")), .hasCore (str ("negotiation")),
   .hasCore (str ("presentation")), .hasCore (str ("analytical")),
   .hasCore (str ("strategic")), .hasCore (str ("innovative")),
   .hasCore (str ("proactive")), .hasCore (str ("organized"))]

def catTechnical : Str := str ("Technical Skills")
def catTools : Str := str ("Tools & Technologies")
def catSoft : Str := str ("Soft Skills")
def catOther : Str := str ("Other Skills")

def categorize_keyword (keyword : Str) : Str :=
  if technical_patterns.any (fun p => pyReMatchI p keyword) then catTechnical
  else if tools_patterns.any (fun p => pyReMatchI p keyword) then catTools
  else if soft_patterns.any (fun p => pyReMatchI p keyword) then catSoft
  else catOther

/- extract_keywords (app.py lines 159-200). -/

def isWordCp (c : Nat) : Bool :=
  decide ((65 ≤ c ∧ c ≤ 90) ∨ (97 ≤ c ∧ c ≤ 122) ∨ (48 ≤ c ∧ c ≤ 57) ∨ c = 95)

def isAsciiAlphaCp (c : Nat) : Bool :=
  decide ((65 ≤ c ∧ c ≤ 90) ∨ (97 ≤ c ∧ c ≤ 122))

/- Maximal runs of word characters (the accumulator holds the current run,
   reversed). -/
def wordRunsAux (cur : Str) : Str → List Str
  | [] => if cur.isEmpty then [] else [cur.reverse]
  | c :: cs =>
    if isWordCp c then wordRunsAux (c :: cur) cs
    else if cur.isEmpty then wordRunsAux [] cs
    else cur.reverse :: wordRunsAux [] cs

def wordRuns (s : Str) : List Str := wordRunsAux [] s

/- re.findall of word-boundary-delimited alphabetic tokens of length at least
   3: exactly the maximal word-character runs that are purely alphabetic and
   at least 3 long (a letter run touching a digit or underscore has no word
   boundary there and is rejected by the boundary anchors). -/
def pyFindWords (text : Str) : List Str :=
  (wordRuns text).filter (fun w => decide (3 ≤ w.length) && w.all isAsciiAlphaCp)

/- The stop-word set literal (app.py lines 170-179), kept in source order;
   the duplicated entries of the Python set literal are harmless for
   membership. -/
def stop_words : List Str :=
  [str ("the"), str ("and"), str ("for"), str ("are"), str ("but"),
   str ("not"), str ("you"), str ("all"), str ("can"), str ("your"),
   str ("has"), str ("had"), str ("her"), str ("his"), str ("how"),
   str ("out"), str ("see"), str ("now"), str ("one"), str ("may"),
   str ("get"), str ("its"), str ("who"), str ("than"), str ("been"),
   str ("any"), str ("our"), str ("from"), str ("with"), str ("this"),
   str ("that"), str ("have"), str ("will"), str ("would"), str ("should"),
   str ("could"), str ("what"), str ("when"), str ("where"), str ("which"),
   str ("there"), str ("their"), str ("they"), str ("them"), str ("these"),
   str ("those"), str ("then"), str ("than"), str ("such"), str ("some"),
   str ("also"), str ("more"), str ("most"), str ("just"), str ("like"),
   str ("only"), str ("other"), str ("about"), str ("into"), str ("over"),
   str ("under"), str ("after"), str ("before"), str ("between"),
   str ("through"), str ("during"), str ("without"), str ("being"),
   str ("both"), str ("each"), str ("while"), str ("until"), str ("upon"),
   str ("within"), str ("using"), str ("based"), str ("including"),
   str ("according"), str ("following"), str ("various"), str ("including"),
   str ("provide"), str ("provided")]

/- Counter keys in insertion order = distinct words in first-occurrence
   order. -/
def dedupFirstAux (seen : List Str) : List Str → List Str
  | [] => []
  | x :: xs =>
    if x ∈ seen then dedupFirstAux seen xs else x :: dedupFirstAux (x :: seen) xs

def dedupFirst (l : List Str) : List Str := dedupFirstAux [] l

def countOcc (w : Str) (l : List Str) : Nat := (l.filter (fun x => decide (x = w))).length

def firstIdx (w : Str) : List Str → Nat
  | [] => 0
  | x :: xs => if x = w then 0 else firstIdx w xs + 1

/- Counter.most_common is a stable sort by count descending over the counter
   items, whose insertion order is first-occurrence order; extensionally that
   is a sort by the total key (count descending, first occurrence ascending),
   realised here as an insertion sort. -/
def mcBefore (l : List Str) (a b : Str) : Bool :=
  decide (countOcc b l < countOcc a l ∨
    (countOcc a l = countOcc b l ∧ firstIdx a l < firstIdx b l))

def insertMC (l : List Str) (x : Str) : List Str → List Str
  | [] => [x]
  | y :: ys => if mcBefore l x y then x :: y :: ys else y :: insertMC l x ys

def sortMC (l : List Str) : List Str → List Str
  | [] => []
  | x :: xs => insertMC l x (sortMC l xs)

structure KwInfo where
  keyword : Str
  category : Str
  synonyms : List Str
  count : Nat
deriving DecidableEq, Repr

/- filtered_words: the token stream after stop-word removal, the list whose
multiplicities the Counter records. -/
def extract_filtered (text : Str) : List Str :=
  (pyFindWords (clean_text text)).filter (fun w => !decide (w ∈ stop_words))

def extract_keywords (wn : Str → Option (List (List Str))) (text : Str) : List KwInfo :=
  ((sortMC (extract_filtered text) (dedupFirst (extract_filtered text))).take 30).map
    (fun w =>
      { keyword := w, category := categorize_keyword w,
        synonyms := get_synonyms wn w, count := countOcc w (extract_filtered text) })

/- calculate_match (app.py lines 202-261). -/

inductive MatchType where
  | exact
  | syn
deriving DecidableEq, Repr

/- A found_keywords entry; the exact-match dict carries no matched_synonym
   key, modelled by none. -/
structure FoundKw where
  keyword : Str
  category : Str
  match_type : MatchType
  matched_synonym : Option Str
  synonyms : List Str
deriving DecidableEq, Repr

structure MissingKw where
  keyword : Str
  category : Str
  synonyms : List Str
deriving DecidableEq, Repr

inductive Classified where
  | found : FoundKw → Classified
  | missing : MissingKw → Classified
deriving DecidableEq, Repr

def exactRecord (k : KwInfo) : FoundKw :=
  { keyword := k.keyword, category := k.category, match_type := .exact,
    matched_synonym := none, synonyms := k.synonyms }

def synRecord (k : KwInfo) (ms : Str) : FoundKw :=
  { keyword := k.keyword, category := k.category, match_type := .syn,
    matched_synonym := some ms, synonyms := k.synonyms }

def missingRecord (k : KwInfo) : MissingKw :=
  { keyword := k.keyword, category := k.category, synonyms := k.synonyms }

/- The body of the for loop: exact substring test first, otherwise the first
   synonym (in stored order) occurring in the resume, otherwise missing. -/
def classify (resume_clean : Str) (k : KwInfo) : Classified :=
  if containsSub k.keyword resume_clean then .found (exactRecord k)
  else
    match k.synonyms.find? (fun s => containsSub s resume_clean) with
    | some ms => .found (synRecord k ms)
    | none => .missing (missingRecord k)

/- The loop accumulators: found list, missing list, exact and synonym
   counters. -/
def matchLoop (rc : Str) : List KwInfo → List FoundKw × List MissingKw × Nat × Nat
  | [] => ([], [], 0, 0)
  | k :: ks =>
    let rest := matchLoop rc ks
    match classify rc k with
    | .found fk =>
      if fk.match_type = .exact then (fk :: rest.1, rest.2.1, rest.2.2.1 + 1, rest.2.2.2)
      else (fk :: rest.1, rest.2.1, rest.2.2.1, rest.2.2.2 + 1)
    | .missing mk => (rest.1, mk :: rest.2.1, rest.2.2.1, rest.2.2.2)

/- Scores are rational: 1.0 and 0.7 are exact decimal literals of the score
   formula. -/
structure MatchResult where
  match_percentage : ℚ
  found_keywords : List FoundKw
  missing_keywords : List MissingKw
  total_keywords : Nat
  exact_matches : Nat
  synonym_matches : Nat
deriving DecidableEq, Repr

def calculate_match (resume_text : Str) (job_keywords : List KwInfo) : MatchResult :=
  let resume_clean := clean_text resume_text
  let r := matchLoop resume_clean job_keywords
  let total := job_keywords.length
  let pct : ℚ :=
    if 0 < total then (r.2.2.1 * 1.0 + r.2.2.2 * 0.7) / total * 100 else 0
  { match_percentage := pct, found_keywords := r.1, missing_keywords := r.2.1,
    total_keywords := total, exact_matches := r.2.2.1, synonym_matches := r.2.2.2 }

/- generate_improvement_suggestions (app.py lines 263-302). -/

def joinComma : List Str → Str
  | [] => []
  | [w] => w
  | w :: ws => w ++ str (", ") ++ joinComma ws

def techMsg (ws : List Str) : Str :=
  str ("**Add technical skills**: Consider including ") ++ joinComma ws ++
    str (" in your skills section")

def toolsMsg (ws : List Str) : Str :=
  str ("**Learn tools**: Gain experience with ") ++ joinComma ws ++
    str (" through online courses or projects")

def softMsg (ws : List Str) : Str :=
  str ("**Highlight soft skills**: Add examples demonstrating ") ++ joinComma ws ++
    str (" in your experience section")

def majorMsg : Str :=
  str ("**Major revision needed**: Consider significantly restructuring your resume to better match the job requirements")

def moderateMsg : Str :=
  str ("**Moderate improvements**: Focus on adding the top missing keywords to your resume")

def goodMsg : Str :=
  str ("**Good match**: Minor tweaks suggested for optimal alignment")

/- missing_by_category: a Python dict keeps keys in first-appearance order,
   each key holding all of its records in list order. -/
def groupByCategory (l : List MissingKw) : List (Str × List MissingKw) :=
  (dedupFirst (l.map (fun kw => kw.category))).map
    (fun cat => (cat, l.filter (fun kw => decide (kw.category = cat))))

/- One iteration of the per-category loop, including the non-emptiness guards
   of the source. -/
def category_suggestion (cat : Str) (kws : List MissingKw) : Option Str :=
  if cat = catTechnical then
    let tech := (kws.take 3).map (fun kw => kw.keyword)
    if tech.isEmpty then none else some (techMsg tech)
  else if cat = catTools then
    let tools := (kws.take 3).map (fun kw => kw.keyword)
    if tools.isEmpty then none else some (toolsMsg tools)
  else if cat = catSoft then
    let softs := (kws.take 2).map (fun kw => kw.keyword)
    if softs.isEmpty then none else some (softMsg softs)
  else none

def severityMsg (n : Nat) : Str :=
  if 10 < n then majorMsg else if 5 < n then moderateMsg else goodMsg

def generate_improvement_suggestions (missing_keywords : List MissingKw)
    (found_keywords : List FoundKw) : List Str :=
  ((groupByCategory missing_keywords).filterMap
      (fun p => category_suggestion p.1 p.2)) ++
    [severityMsg missing_keywords.length]

/- Helper lemmas about the matching loop. -/

def foundPart : Classified → Option FoundKw
  | .found f => some f
  | .missing _ => none

def missingPart : Classified → Option MissingKw
  | .missing m => some m
  | .found _ => none

theorem matchLoop_found_eq (rc : Str) (ks : List KwInfo) :
    (matchLoop rc ks).1 = ks.filterMap (fun k => foundPart (classify rc k)) := by
  induction ks with
  | nil => rfl
  | cons k ks ih =>
    simp only [matchLoop, List.filterMap_cons]
    cases h : classify rc k with
    | found fk =>
      by_cases hmt : fk.match_type = MatchType.exact <;> simp [hmt, foundPart, ih]
    | missing mk => simp [foundPart, ih]

theorem matchLoop_missing_eq (rc : Str) (ks : List KwInfo) :
    (matchLoop rc ks).2.1 = ks.filterMap (fun k => missingPart (classify rc k)) := by
  induction ks with
  | nil => rfl
  | cons k ks ih =>
    simp only [matchLoop, List.filterMap_cons]
    cases h : classify rc k with
    | found fk =>
      by_cases hmt : fk.match_type = MatchType.exact <;> simp [hmt, missingPart, ih]
    | missing mk => simp [missingPart, ih]

theorem matchLoop_exact_eq (rc : Str) (ks : List KwInfo) :
    (matchLoop rc ks).2.2.1 =
      ((matchLoop rc ks).1.filter
        (fun f => decide (f.match_type = MatchType.exact))).length := by
  induction ks with
  | nil => rfl
  | cons k ks ih =>
    simp only [matchLoop]
    cases h : classify rc k with
    | found fk =>
      by_cases hmt : fk.match_type = MatchType.exact <;>
        simp [hmt, List.filter_cons, ih]
    | missing mk => simpa using ih

theorem matchLoop_syn_eq (rc : Str) (ks : List KwInfo) :
    (matchLoop rc ks).2.2.2 =
      ((matchLoop rc ks).1.filter
        (fun f => decide (f.match_type = MatchType.syn))).length := by
  induction ks with
  | nil => rfl
  | cons k ks ih =>
    simp only [matchLoop]
    cases h : classify rc k with
    | found fk =>
      by_cases hmt : fk.match_type = MatchType.exact
      · simp [hmt, List.filter_cons, ih]
      · have hs : fk.match_type = MatchType.syn := by
          cases hm : fk.match_type
          · exact absurd hm hmt
          · rfl
        simp [hmt, hs, List.filter_cons, ih]
    | missing mk => simpa using ih

theorem matchLoop_total (rc : Str) (ks : List KwInfo) :
    (matchLoop rc ks).2.2.1 + (matchLoop rc ks).2.2.2 +
      (matchLoop rc ks).2.1.length = ks.length := by
  induction ks with
  | nil => rfl
  | cons k ks ih =>
    simp only [matchLoop]
    cases h : classify rc k with
    | found fk =>
      by_cases hmt : fk.match_type = MatchType.exact <;> simp [hmt] <;> omega
    | missing mk => simp; omega

/-- Claim C8: for every resume_text and keyword list, the result of
calculate_match satisfies exact_matches + synonym_matches +
(length of missing_keywords) = total_keywords = length of the input list, and
the derived counts equal the tallies of exact and synonym records among
found_keywords: every keyword is classified into exactly one status. -/
theorem calculate_match_counts_invariant (resume_text : Str) (job_keywords : List KwInfo) :
    (calculate_match resume_text job_keywords).exact_matches +
        (calculate_match resume_text job_keywords).synonym_matches +
        (calculate_match resume_text job_keywords).missing_keywords.length =
      (calculate_match resume_text job_keywords).total_keywords ∧
    (calculate_match resume_text job_keywords).total_keywords = job_keywords.length ∧
    (calculate_match resume_text job_keywords).exact_matches =
      ((calculate_match resume_text job_keywords).found_keywords.filter
        (fun f => decide (f.match_type = MatchType.exact))).length ∧
    (calculate_match resume_text job_keywords).synonym_matches =
      ((calculate_match resume_text job_keywords).found_keywords.filter
        (fun f => decide (f.match_type = MatchType.syn))).length := by
  refine ⟨?_, rfl, ?_, ?_⟩
  · simpa [calculate_match] using matchLoop_total (clean_text resume_text) job_keywords
  · simpa [calculate_match] using matchLoop_exact_eq (clean_text resume_text) job_keywords
  · simpa [calculate_match] using matchLoop_syn_eq (clean_text resume_text) job_keywords

/-- Claim C1: for every resume_text and keyword list, the match score equals
(exact_matches * 1.0 + synonym_matches * 0.7) / total_keywords * 100 when
total_keywords is positive, equals 0 when the keyword list is empty, and is
always in the range 0 to 100.  Scores are modelled with exact rational
arithmetic, the intended semantics of the decimal literals of the source. -/
theorem calculate_match_score_formula (resume_text : Str) (job_keywords : List KwInfo) :
    (calculate_match resume_text job_keywords).match_percentage =
      (if 0 < job_keywords.length then
        (((calculate_match resume_text job_keywords).exact_matches : ℚ) * 1.0 +
            ((calculate_match resume_text job_keywords).synonym_matches : ℚ) * 0.7) /
          (job_keywords.length : ℚ) * 100
       else 0) ∧
    0 ≤ (calculate_match resume_text job_keywords).match_percentage ∧
    (calculate_match resume_text job_keywords).match_percentage ≤ 100 := by
  have htot := matchLoop_total (clean_text resume_text) job_keywords
  refine ⟨rfl, ?_, ?_⟩
  · simp only [calculate_match]
    split
    · positivity
    · exact le_refl 0
  · simp only [calculate_match]
    split
    · rename_i hn
      set e := (matchLoop (clean_text resume_text) job_keywords).2.2.1 with he
      set s := (matchLoop (clean_text resume_text) job_keywords).2.2.2 with hs
      have hes : e + s ≤ job_keywords.length := by omega
      have hq : (e : ℚ) + (s : ℚ) ≤ (job_keywords.length : ℚ) := by exact_mod_cast hes
      have hnq : (0 : ℚ) < (job_keywords.length : ℚ) := by exact_mod_cast hn
      rw [div_mul_eq_mul_div, div_le_iff₀ hnq]
      have hs0 : (0 : ℚ) ≤ (s : ℚ) := by positivity
      nlinarith
    · norm_num

/- Claim C9 support: the loop body reads only the keyword, category and
synonyms fields of a record, never its count. -/

def stripCount (k : KwInfo) : Str × Str × List Str := (k.keyword, k.category, k.synonyms)

theorem classify_congr (rc : Str) {k1 k2 : KwInfo} (h : stripCount k1 = stripCount k2) :
    classify rc k1 = classify rc k2 := by
  obtain ⟨hk, hc, hsy⟩ : k1.keyword = k2.keyword ∧ k1.category = k2.category ∧
      k1.synonyms = k2.synonyms := by
    simpa [stripCount, Prod.ext_iff] using h
  simp only [classify, exactRecord, synRecord, missingRecord, hk, hc, hsy]

theorem matchLoop_congr (rc : Str) {ks1 ks2 : List KwInfo}
    (h : ks1.map stripCount = ks2.map stripCount) :
    matchLoop rc ks1 = matchLoop rc ks2 := by
  induction ks1 generalizing ks2 with
  | nil =>
    cases ks2 with
    | nil => rfl
    | cons b bs => simp at h
  | cons k ks ih =>
    cases ks2 with
    | nil => simp at h
    | cons b bs =>
      simp only [List.map_cons, List.cons.injEq] at h
      simp only [matchLoop, ih h.2, classify_congr rc h.1]

/-- Claim C9: the output of calculate_match does not depend on the count
fields of the input keyword records; two keyword lists identical except in
their per-keyword counts give identical results for every resume_text. -/
theorem calculate_match_count_independent (resume_text : Str) (kws1 kws2 : List KwInfo)
    (h : kws1.map stripCount = kws2.map stripCount) :
    calculate_match resume_text kws1 = calculate_match resume_text kws2 := by
  have hlen : kws1.length = kws2.length := by
    have := congrArg List.length h
    simpa using this
  simp only [calculate_match, matchLoop_congr (clean_text resume_text) h, hlen]

/-- Witness for claim C9 at a concrete input: the same keyword list with
counts 5 and 1 gives the same result. -/
theorem calculate_match_count_independent_witness :
    calculate_match (str ("knows sql"))
        [{ keyword := str ("sql"), category := catTechnical, synonyms := [], count := 5 }] =
      calculate_match (str ("knows sql"))
        [{ keyword := str ("sql"), category := catTechnical, synonyms := [], count := 1 }] :=
  calculate_match_count_independent (str ("knows sql")) _ _ rfl

/-- Claim C2: every keyword record processed by calculate_match is classified
exact iff its text is a literal substring of the normalized resume text;
otherwise synonym iff some stored synonym is a literal substring, and then
matched_synonym is the first such synonym in stored order; otherwise missing.
The first two conjuncts tie the per-keyword classification to the lists
calculate_match returns. -/
theorem calculate_match_classification (resume_text : Str) (job_keywords : List KwInfo)
    (k : KwInfo) :
    ((calculate_match resume_text job_keywords).found_keywords =
        job_keywords.filterMap (fun j => foundPart (classify (clean_text resume_text) j))) ∧
    ((calculate_match resume_text job_keywords).missing_keywords =
        job_keywords.filterMap (fun j => missingPart (classify (clean_text resume_text) j))) ∧
    (classify (clean_text resume_text) k = .found (exactRecord k) ↔
        containsSub k.keyword (clean_text resume_text) = true) ∧
    (∀ ms : Str,
      classify (clean_text resume_text) k = .found (synRecord k ms) ↔
        containsSub k.keyword (clean_text resume_text) = false ∧
          ∃ pre post, k.synonyms = pre ++ ms :: post ∧
            containsSub ms (clean_text resume_text) = true ∧
            ∀ s ∈ pre, containsSub s (clean_text resume_text) = false) ∧
    (classify (clean_text resume_text) k = .missing (missingRecord k) ↔
        containsSub k.keyword (clean_text resume_text) = false ∧
          ∀ s ∈ k.synonyms, containsSub s (clean_text resume_text) = false) := by
  refine ⟨by simpa [calculate_match] using matchLoop_found_eq (clean_text resume_text) job_keywords,
    by simpa [calculate_match] using matchLoop_missing_eq (clean_text resume_text) job_keywords,
    ?_, ?_, ?_⟩
  · by_cases hc : containsSub k.keyword (clean_text resume_text) = true
    · simp [classify, hc]
    · rw [Bool.not_eq_true] at hc
      simp only [classify, hc, Bool.false_eq_true, if_false]
      cases hf : k.synonyms.find? (fun s => containsSub s (clean_text resume_text)) with
      | none => simp [hc]
      | some m => simp [synRecord, exactRecord, hc]
  · intro ms
    by_cases hc : containsSub k.keyword (clean_text resume_text) = true
    · simp [classify, hc, exactRecord, synRecord]
    · rw [Bool.not_eq_true] at hc
      simp only [classify, hc, Bool.false_eq_true, if_false]
      cases hf : k.synonyms.find? (fun s => containsSub s (clean_text resume_text)) with
      | none =>
        simp only [Bool.not_eq_true]
        constructor
        · intro h; exact absurd h (by simp)
        · rintro ⟨-, pre, post, hsplit, hms, hpre⟩
          have hnone := List.find?_eq_none.mp hf ms (by rw [hsplit]; simp)
          rw [hms] at hnone
          simp at hnone
      | some m =>
        constructor
        · intro h
          have hm : m = ms := by
            simpa [synRecord] using h
          subst hm
          obtain ⟨hp, pre, post, hsplit, hpre⟩ := List.find?_eq_some.mp hf
          exact ⟨by simp [hc], pre, post, hsplit, hp, fun s hs => by simpa using hpre s hs⟩
        · rintro ⟨-, pre, post, hsplit, hms, hpre⟩
          have hsome : k.synonyms.find? (fun s => containsSub s (clean_text resume_text)) =
              some ms :=
            List.find?_eq_some.mpr ⟨hms, pre, post, hsplit, fun a ha => by simpa using hpre a ha⟩
          rw [hf] at hsome
          have hm : m = ms := by simpa using hsome
          rw [hm]
  · by_cases hc : containsSub k.keyword (clean_text resume_text) = true
    · simp [classify, hc, exactRecord, missingRecord]
    · rw [Bool.not_eq_true] at hc
      simp only [classify, hc, Bool.false_eq_true, if_false]
      cases hf : k.synonyms.find? (fun s => containsSub s (clean_text resume_text)) with
      | none =>
        constructor
        · intro _
          refine ⟨by simp [hc], fun s hs => ?_⟩
          have := List.find?_eq_none.mp hf s hs
          simpa using this
        · intro _; rfl
      | some m =>
        constructor
        · intro h; exact absurd h (by simp)
        · rintro ⟨-, hall⟩
          have hp := List.find?_some hf
          have hmem := List.mem_of_find?_eq_some hf
          rw [hall m hmem] at hp
          simp at hp

/-- Witness for claim C2 at a concrete input: the keyword "programming" with
synonyms ["scheduling", "coding"] matched against "has coding skills" is a
synonym match recording "coding", the first stored synonym occurring in the
resume. -/
theorem calculate_match_classification_witness :
    classify (clean_text (str ("has coding skills")))
        { keyword := str ("programming"), category := catTechnical,
          synonyms := [str ("scheduling"), str ("coding")], count := 1 } =
      .found (synRecord
        { keyword := str ("programming"), category := catTechnical,
          synonyms := [str ("scheduling"), str ("coding")], count := 1 }
        (str ("coding"))) :=
  ((calculate_match_classification (str ("has coding skills")) []
      { keyword := str ("programming"), category := catTechnical,
        synonyms := [str ("scheduling"), str ("coding")], count := 1 }).2.2.2.1
    (str ("coding"))).mpr
    ⟨by decide, [str ("scheduling")], [], by decide, by decide, by decide⟩

/- Claim C6 support: the invariant preserved by the collecting loop of
get_synonyms. -/

def synInv (word : Str) (l : List Str) : Prop :=
  l.Nodup ∧ ∀ s ∈ l, s ≠ word ∧ (splitWords s).length = 1

theorem synAdd_inv (word : Str) (x : Str) {acc : List Str} (h : synInv word acc) :
    synInv word (synAdd word acc x) := by
  obtain ⟨hnd, hall⟩ := h
  simp only [synAdd]
  split
  · rename_i hcond
    split
    · exact ⟨hnd, hall⟩
    · rename_i hnotmem
      constructor
      · simp [List.nodup_append, hnd, hnotmem]
      · intro s hs
        rcases List.mem_append.mp hs with hs | hs
        · exact hall s hs
        · simp only [List.mem_singleton] at hs
          subst hs
          exact hcond
  · exact ⟨hnd, hall⟩

theorem foldl_synAdd_inv (word : Str) (l : List Str) {acc : List Str} (h : synInv word acc) :
    synInv word (l.foldl (synAdd word) acc) := by
  induction l generalizing acc with
  | nil => exact h
  | cons x xs ih => exact ih (synAdd_inv word x h)

theorem foldl_synsets_inv (word : Str) (ls : List (List Str)) {acc : List Str}
    (h : synInv word acc) :
    synInv word (ls.foldl (fun acc syn => syn.foldl (synAdd word) acc) acc) := by
  induction ls generalizing acc with
  | nil => exact h
  | cons x xs ih => exact ih (foldl_synAdd_inv word x h)

/-- Claim C6: for every word, get_synonyms returns at most 3 distinct
single-word strings, none equal to the input word; and when the synonym
dictionary is unavailable or a lookup fails, it returns the empty sequence
(the except branch), letting no exception escape. -/
theorem get_synonyms_spec (wn : Str → Option (List (List Str))) (word : Str) :
    (get_synonyms wn word).length ≤ 3 ∧
    (get_synonyms wn word).Nodup ∧
    (∀ s ∈ get_synonyms wn word, s ≠ word ∧ (splitWords s).length = 1) ∧
    (wn word = none → get_synonyms wn word = []) := by
  unfold get_synonyms
  cases hw : wn word with
  | none => simp
  | some synsets =>
    have hinv := foldl_synsets_inv word synsets
      (show synInv word [] from ⟨List.nodup_nil, by simp⟩)
    refine ⟨List.length_take_le 3 _, ?_, ?_, by simp⟩
    · exact (List.take_sublist 3 _).nodup hinv.1
    · intro s hs
      exact hinv.2 s (List.take_subset 3 _ hs)

/-- Witness for claim C6 at concrete inputs: a one-synset dictionary yields a
synonym distinct from the word and single-word, and the unavailable
dictionary yields the empty sequence. -/
theorem get_synonyms_spec_witness :
    (str ("squad") ≠ str ("team") ∧ (splitWords (str ("squad"))).length = 1) ∧
      get_synonyms (fun _ => none) (str ("team")) = [] :=
  ⟨(get_synonyms_spec (fun _ => some [[str ("squad")]]) (str ("team"))).2.2.1
      (str ("squad")) (by decide),
   (get_synonyms_spec (fun _ => none) (str ("team"))).2.2.2 rfl⟩

/- Claim C10 support: the ASCII fold of an alphabetic code point is in a..z,
so the first Tools pattern accepts every purely alphabetic word. -/

theorem lowerCp_alpha {c : Nat} (h : isAsciiAlphaCp c = true) :
    isLowerAZCp (lowerCp c) = true := by
  simp only [isAsciiAlphaCp, decide_eq_true_eq] at h
  simp only [isLowerAZCp, lowerCp, decide_eq_true_eq]
  split <;> omega

theorem azTail_of_alpha : ∀ w : Str, w.all isAsciiAlphaCp = true →
    azTail (w.map lowerCp) = true
  | [], _ => rfl
  | [c], h => by
    simp only [List.all_cons, List.all_nil, Bool.and_true] at h
    simp [azTail, lowerCp_alpha h]
  | c :: d :: cs, h => by
    simp only [List.all_cons, Bool.and_eq_true] at h
    have ih := azTail_of_alpha (d :: cs) (by simp [h.2.1, h.2.2])
    simp only [List.map_cons] at ih ⊢
    simp [azTail, lowerCp_alpha h.1, ih]

theorem azPlusOptMatch_of_alpha (w : Str) (h1 : w ≠ []) (h2 : w.all isAsciiAlphaCp = true) :
    azPlusOptMatch (w.map lowerCp) = true := by
  cases w with
  | nil => exact absurd rfl h1
  | cons c cs =>
    simp only [List.all_cons, Bool.and_eq_true] at h2
    simp [azPlusOptMatch, lowerCp_alpha h2.1, azTail_of_alpha cs h2.2]

/-- Claim C10: every nonempty purely alphabetic word (the only form of
keyword extract_keywords can produce) is categorized Technical Skills or
Tools and Technologies, never Soft Skills or Other Skills, because the first
Tools pattern accepts every alphabetic word and is tested before the Soft
list and the fallback. -/
theorem categorize_alpha_never_soft (w : Str) (h1 : w ≠ [])
    (h2 : w.all isAsciiAlphaCp = true) :
    categorize_keyword w = catTechnical ∨ categorize_keyword w = catTools := by
  unfold categorize_keyword
  by_cases ht : technical_patterns.any (fun p => pyReMatchI p w) = true
  · rw [if_pos ht]
    exact Or.inl rfl
  · rw [if_neg ht, if_pos ?_]
    · exact Or.inr rfl
    · apply List.any_eq_true.mpr
      refine ⟨.azPlusOpt, by simp [tools_patterns], ?_⟩
      simpa [pyReMatchI] using azPlusOptMatch_of_alpha w h1 h2

/-- Witness for claim C10 at a concrete input: the word "communication" is
nonempty, purely alphabetic, and categorized Technical or Tools. -/
theorem categorize_alpha_never_soft_witness :
    str ("communication") ≠ [] ∧ (str ("communication")).all isAsciiAlphaCp = true ∧
      (categorize_keyword (str ("communication")) = catTechnical ∨
        categorize_keyword (str ("communication")) = catTools) :=
  ⟨by decide, by decide,
    categorize_alpha_never_soft (str ("communication")) (by decide) (by decide)⟩

/-- Claim C3 counterexample, settled as a code bug: the words named by the
spec as Soft Skills representatives ("communication", "teamwork",
"leadership") each match a pattern of the Soft list, yet categorize_keyword
returns Tools and Technologies for all three, because the Tools pattern list
is tested earlier and its first pattern accepts every alphabetic word; the
Soft category is unreachable for the purely alphabetic keywords the app
extracts, contradicting the in-app documentation of the categorizer. -/
theorem categorize_soft_words_get_tools :
    categorize_keyword (str ("communication")) = catTools ∧
    categorize_keyword (str ("teamwork")) = catTools ∧
    categorize_keyword (str ("leadership")) = catTools ∧
    soft_patterns.any (fun p => pyReMatchI p (str ("communication"))) = true ∧
    soft_patterns.any (fun p => pyReMatchI p (str ("teamwork"))) = true ∧
    soft_patterns.any (fun p => pyReMatchI p (str ("leadership"))) = true := by
  decide

/- Claims C4, C5, C7 support: elements produced by dedupFirst come from the
input list. -/

theorem dedupFirstAux_subset : ∀ {l : List Str} {seen : List Str} {a : Str},
    a ∈ dedupFirstAux seen l → a ∈ l := by
  intro l
  induction l with
  | nil => intro seen a h; simp [dedupFirstAux] at h
  | cons x xs ih =>
    intro seen a h
    rw [dedupFirstAux] at h
    split at h
    · exact List.mem_cons_of_mem x (ih h)
    · rcases List.mem_cons.mp h with h | h
      · exact h ▸ List.mem_cons_self x xs
      · exact List.mem_cons_of_mem x (ih h)

theorem mem_dedupFirst_subset {l : List Str} {a : Str} (h : a ∈ dedupFirst l) : a ∈ l :=
  dedupFirstAux_subset h

/- Claim C7 support: every category group collects at least one record. -/

theorem groupByCategory_snd_ne_nil {l : List MissingKw} {p : Str × List MissingKw}
    (hp : p ∈ groupByCategory l) : p.2 ≠ [] := by
  simp only [groupByCategory, List.mem_map] at hp
  obtain ⟨cat, hcat, rfl⟩ := hp
  have hmem : cat ∈ l.map (fun kw => kw.category) := mem_dedupFirst_subset hcat
  obtain ⟨kw, hkw, hkwc⟩ := List.mem_map.mp hmem
  have hkwf : kw ∈ l.filter (fun kw2 => decide (kw2.category = cat)) := by
    simp [List.mem_filter, hkw, hkwc]
  exact List.ne_nil_of_mem hkwf

/-- Claim C7: generate_improvement_suggestions emits the per-category
suggestions (citing at most the first 3 missing Technical Skills keywords, at
most the first 3 Tools and Technologies keywords, at most the first 2 Soft
Skills keywords, nothing for other categories) followed by exactly one
severity suggestion chosen by total missing count (above 10 the major tier,
above 5 the moderate tier, otherwise the good-match tier), so the result is
never empty, even for an empty missing sequence. -/
theorem generate_suggestions_shape (missing : List MissingKw) (found : List FoundKw) :
    1 ≤ (generate_improvement_suggestions missing found).length ∧
    (generate_improvement_suggestions missing found).getLast? =
      some (if 10 < missing.length then majorMsg
            else if 5 < missing.length then moderateMsg else goodMsg) ∧
    (generate_improvement_suggestions missing found).dropLast =
      (groupByCategory missing).filterMap (fun p =>
        if p.1 = catTechnical then
          some (techMsg ((p.2.take 3).map (fun kw => kw.keyword)))
        else if p.1 = catTools then
          some (toolsMsg ((p.2.take 3).map (fun kw => kw.keyword)))
        else if p.1 = catSoft then
          some (softMsg ((p.2.take 2).map (fun kw => kw.keyword)))
        else none) := by
  refine ⟨?_, ?_, ?_⟩
  · simp [generate_improvement_suggestions]
  · simp [generate_improvement_suggestions, severityMsg, List.getLast?_concat]
  · rw [generate_improvement_suggestions, List.dropLast_concat]
    apply List.filterMap_congr
    intro p hp
    have hne := groupByCategory_snd_ne_nil hp
    have htake3 : p.2.take 3 ≠ [] := by
      cases hq : p.2 with
      | nil => exact absurd hq hne
      | cons a as => simp [hq]
    have htake2 : p.2.take 2 ≠ [] := by
      cases hq : p.2 with
      | nil => exact absurd hq hne
      | cons a as => simp [hq]
    have hTT : catTools = catTechnical ↔ False := by decide
    have hST : catSoft = catTechnical ↔ False := by decide
    have hSTo : catSoft = catTools ↔ False := by decide
    simp only [category_suggestion]
    by_cases h1 : p.1 = catTechnical
    · simp [h1, htake3, hne]
    · by_cases h2 : p.1 = catTools
      · simp [h1, h2, htake3, hne, hTT]
      · by_cases h3 : p.1 = catSoft
        · simp [h1, h2, h3, htake2, hne, hST, hSTo]
        · simp [h1, h2, h3]

/- Claim C4 support: characters of the runs come from the scanned text, and
the cleaned text contains only folded characters and spaces. -/

theorem wordRunsAux_chars : ∀ {s cur : Str} {r : Str}, r ∈ wordRunsAux cur s →
    ∀ c ∈ r, c ∈ cur ∨ c ∈ s := by
  intro s
  induction s with
  | nil =>
    intro cur r hr c hc
    rw [wordRunsAux] at hr
    split at hr
    · simp at hr
    · simp only [List.mem_singleton] at hr
      subst hr
      exact Or.inl (List.mem_reverse.mp hc)
  | cons x xs ih =>
    intro cur r hr c hc
    rw [wordRunsAux] at hr
    split at hr
    · rcases ih hr c hc with h | h
      · rcases List.mem_cons.mp h with h | h
        · exact Or.inr (h ▸ List.mem_cons_self x xs)
        · exact Or.inl h
      · exact Or.inr (List.mem_cons_of_mem x h)
    · split at hr
      · rcases ih hr c hc with h | h
        · simp at h
        · exact Or.inr (List.mem_cons_of_mem x h)
      · rcases List.mem_cons.mp hr with h | h
        · exact Or.inl (List.mem_reverse.mp (h ▸ hc))
        · rcases ih h c hc with h2 | h2
          · simp at h2
          · exact Or.inr (List.mem_cons_of_mem x h2)

theorem splitWordsAux_chars : ∀ {s cur : Str} {r : Str}, r ∈ splitWordsAux cur s →
    ∀ c ∈ r, c ∈ cur ∨ c ∈ s := by
  intro s
  induction s with
  | nil =>
    intro cur r hr c hc
    rw [splitWordsAux] at hr
    split at hr
    · simp at hr
    · simp only [List.mem_singleton] at hr
      subst hr
      exact Or.inl (List.mem_reverse.mp hc)
  | cons x xs ih =>
    intro cur r hr c hc
    rw [splitWordsAux] at hr
    split at hr
    · split at hr
      · rcases ih hr c hc with h | h
        · simp at h
        · exact Or.inr (List.mem_cons_of_mem x h)
      · rcases List.mem_cons.mp hr with h | h
        · exact Or.inl (List.mem_reverse.mp (h ▸ hc))
        · rcases ih h c hc with h2 | h2
          · simp at h2
          · exact Or.inr (List.mem_cons_of_mem x h2)
    · rcases ih hr c hc with h | h
      · rcases List.mem_cons.mp h with h | h
        · exact Or.inr (h ▸ List.mem_cons_self x xs)
        · exact Or.inl h
      · exact Or.inr (List.mem_cons_of_mem x h)

theorem joinWords_chars : ∀ {ws : List Str} {c : Nat}, c ∈ joinWords ws →
    (∃ w ∈ ws, c ∈ w) ∨ c = 32 := by
  intro ws
  induction ws with
  | nil => intro c hc; simp [joinWords] at hc
  | cons w ws ih =>
    intro c hc
    cases ws with
    | nil =>
      exact Or.inl ⟨w, List.mem_singleton_self w, hc⟩
    | cons v vs =>
      have hc2 : c ∈ w ++ 32 :: joinWords (v :: vs) := hc
      rcases List.mem_append.mp hc2 with h | h
      · exact Or.inl ⟨w, List.mem_cons_self w _, h⟩
      · rcases List.mem_cons.mp h with h | h
        · exact Or.inr h
        · rcases ih h with ⟨u, hu, hcu⟩ | h2
          · exact Or.inl ⟨u, List.mem_cons_of_mem w hu, hcu⟩
          · exact Or.inr h2

theorem clean_text_chars {t : Str} {c : Nat} (hc : c ∈ clean_text t) :
    (∃ d, c = lowerCp d) ∨ c = 32 := by
  unfold clean_text at hc
  rcases joinWords_chars hc with ⟨w, hw, hcw⟩ | h
  · rcases splitWordsAux_chars hw c hcw with h | h
    · simp at h
    · obtain ⟨d, -, hd⟩ := List.mem_map.mp h
      exact Or.inl ⟨d, hd.symm⟩
  · exact Or.inr h

theorem clean_char_alpha_lower {c : Nat} (ha : isAsciiAlphaCp c = true)
    (h : (∃ d, c = lowerCp d) ∨ c = 32) : isLowerAZCp c = true := by
  rcases h with ⟨d, rfl⟩ | rfl
  · by_cases hd : 65 ≤ d ∧ d ≤ 90
    · simp only [isAsciiAlphaCp, isLowerAZCp, decide_eq_true_eq, lowerCp, if_pos hd] at ha ⊢
      omega
    · simp only [isAsciiAlphaCp, isLowerAZCp, decide_eq_true_eq, lowerCp, if_neg hd] at ha ⊢
      omega
  · simp [isAsciiAlphaCp] at ha

theorem mem_insertMC {l : List Str} {x0 : Str} : ∀ {ys : List Str} {a : Str},
    a ∈ insertMC l x0 ys ↔ a = x0 ∨ a ∈ ys := by
  intro ys
  induction ys with
  | nil => intro a; simp [insertMC]
  | cons y ys ih =>
    intro a
    rw [insertMC]
    split
    · simp [List.mem_cons]
    · simp only [List.mem_cons, ih]
      tauto

theorem mem_sortMC {l : List Str} : ∀ {xs : List Str} {a : Str},
    a ∈ sortMC l xs ↔ a ∈ xs := by
  intro xs
  induction xs with
  | nil => intro a; simp [sortMC]
  | cons x xs ih =>
    intro a
    rw [sortMC, mem_insertMC]
    simp [ih]

/-- Claim C4: for every job text, extract_keywords returns at most 30
entries; every returned keyword occurs as a token of the normalized job text
(a member of the re.findall token list), is purely alphabetic lowercase, has
length at least 3, and is not a stop word. -/
theorem extract_keywords_shape (wn : Str → Option (List (List Str))) (text : Str) :
    (extract_keywords wn text).length ≤ 30 ∧
    ∀ e ∈ extract_keywords wn text,
      e.keyword ∈ pyFindWords (clean_text text) ∧
      3 ≤ e.keyword.length ∧
      e.keyword.all isLowerAZCp = true ∧
      e.keyword ∉ stop_words := by
  constructor
  · rw [extract_keywords, List.length_map]
    exact List.length_take_le 30 _
  · intro e he
    rw [extract_keywords] at he
    obtain ⟨w, hw, rfl⟩ := List.mem_map.mp he
    have hw1 : w ∈ sortMC (extract_filtered text) (dedupFirst (extract_filtered text)) :=
      List.take_subset 30 _ hw
    have hw2 : w ∈ dedupFirst (extract_filtered text) := mem_sortMC.mp hw1
    have hw3 : w ∈ extract_filtered text := mem_dedupFirst_subset hw2
    rw [extract_filtered, List.mem_filter] at hw3
    obtain ⟨hwords, hstop⟩ := hw3
    have hnotstop : w ∉ stop_words := by
      simpa using hstop
    have hfind := hwords
    rw [pyFindWords, List.mem_filter] at hfind
    obtain ⟨hruns, hprops⟩ := hfind
    rw [Bool.and_eq_true, decide_eq_true_eq] at hprops
    refine ⟨hwords, hprops.1, ?_, hnotstop⟩
    rw [List.all_eq_true]
    intro c hcw
    have hcclean : c ∈ clean_text text := by
      rcases wordRunsAux_chars hruns c hcw with h | h
      · simp at h
      · exact h
    have halpha : isAsciiAlphaCp c = true := by
      have := List.all_eq_true.mp hprops.2 c hcw
      simpa using this
    exact clean_char_alpha_lower halpha (clean_text_chars hcclean)

/-- Witness for claim C4 at a concrete input: the first entry extracted from
"python sql python" is the keyword "python" with count 2, and it satisfies
all the shape properties. -/
theorem extract_keywords_shape_witness :
    str ("python") ∈ pyFindWords (clean_text (str ("python sql python"))) ∧
      3 ≤ (str ("python")).length ∧
      (str ("python")).all isLowerAZCp = true ∧
      str ("python") ∉ stop_words :=
  (extract_keywords_shape (fun _ => none) (str ("python sql python"))).2
    { keyword := str ("python"), category := catTechnical, synonyms := [], count := 2 }
    (by decide)

/- Claim C5 support: distinct present words have distinct first indices, the
ranking order is transitive and total on them, and insertion sort yields a
pairwise-ordered output. -/

theorem firstIdx_inj : ∀ {l : List Str} {a b : Str}, a ∈ l → b ∈ l → a ≠ b →
    firstIdx a l ≠ firstIdx b l := by
  intro l
  induction l with
  | nil => intro a b ha _ _; simp at ha
  | cons x xs ih =>
    intro a b ha hb hne
    rw [firstIdx, firstIdx]
    by_cases hxa : x = a
    · have hxb : ¬x = b := fun h => hne (by rw [← hxa, h])
      rw [if_pos hxa, if_neg hxb]
      omega
    · rw [if_neg hxa]
      by_cases hxb : x = b
      · rw [if_pos hxb]
        omega
      · rw [if_neg hxb]
        have ha2 : a ∈ xs := by
          rcases List.mem_cons.mp ha with h | h
          · exact absurd h.symm hxa
          · exact h
        have hb2 : b ∈ xs := by
          rcases List.mem_cons.mp hb with h | h
          · exact absurd h.symm hxb
          · exact h
        have := ih ha2 hb2 hne
        omega

theorem mcBefore_trans {l : List Str} {a b c : Str} (h1 : mcBefore l a b = true)
    (h2 : mcBefore l b c = true) : mcBefore l a c = true := by
  simp only [mcBefore, decide_eq_true_eq] at h1 h2 ⊢
  omega

theorem mcBefore_total {l : List Str} {a b : Str} (ha : a ∈ l) (hb : b ∈ l)
    (hne : a ≠ b) : mcBefore l a b = true ∨ mcBefore l b a = true := by
  have := firstIdx_inj ha hb hne
  simp only [mcBefore, decide_eq_true_eq]
  omega

theorem insertMC_pairwise {l : List Str} {x0 : Str} : ∀ {ys : List Str},
    List.Pairwise (fun a b => mcBefore l a b = true) ys →
    (∀ y ∈ ys, mcBefore l x0 y = true ∨ mcBefore l y x0 = true) →
    List.Pairwise (fun a b => mcBefore l a b = true) (insertMC l x0 ys) := by
  intro ys
  induction ys with
  | nil => intro _ _; simp [insertMC]
  | cons y ys ih =>
    intro hp htot
    by_cases hxy : mcBefore l x0 y = true
    · rw [insertMC, if_pos hxy]
      constructor
      · intro z hz
        rcases List.mem_cons.mp hz with rfl | hz
        · exact hxy
        · exact mcBefore_trans hxy (List.rel_of_pairwise_cons hp hz)
      · exact hp
    · rw [insertMC, if_neg hxy]
      have hyx : mcBefore l y x0 = true := by
        rcases htot y (List.mem_cons_self y ys) with h | h
        · exact absurd h hxy
        · exact h
      constructor
      · intro z hz
        rcases mem_insertMC.mp hz with rfl | hz
        · exact hyx
        · exact List.rel_of_pairwise_cons hp hz
      · exact ih hp.of_cons (fun z hz => htot z (List.mem_cons_of_mem y hz))

theorem sortMC_pairwise {l : List Str} : ∀ {xs : List Str}, xs.Nodup →
    (∀ w ∈ xs, w ∈ l) →
    List.Pairwise (fun a b => mcBefore l a b = true) (sortMC l xs) := by
  intro xs
  induction xs with
  | nil => intro _ _; simp [sortMC]
  | cons x xs ih =>
    intro hnd hmem
    rw [sortMC]
    apply insertMC_pairwise
    · exact ih hnd.of_cons (fun w hw => hmem w (List.mem_cons_of_mem x hw))
    · intro y hy
      have hyxs : y ∈ xs := mem_sortMC.mp hy
      have hne : x ≠ y := fun h => (List.nodup_cons.mp hnd).1 (h ▸ hyxs)
      exact mcBefore_total (hmem x (List.mem_cons_self x xs))
        (hmem y (List.mem_cons_of_mem x hyxs)) hne

theorem dedupFirstAux_not_mem_seen : ∀ {l seen : List Str} {a : Str},
    a ∈ dedupFirstAux seen l → a ∉ seen := by
  intro l
  induction l with
  | nil => intro seen a h; simp [dedupFirstAux] at h
  | cons x xs ih =>
    intro seen a h
    rw [dedupFirstAux] at h
    split at h
    · exact ih h
    · rename_i hx
      rcases List.mem_cons.mp h with rfl | h
      · exact hx
      · intro hseen
        exact ih h (List.mem_cons_of_mem x hseen)

theorem dedupFirstAux_nodup : ∀ {l seen : List Str}, (dedupFirstAux seen l).Nodup := by
  intro l
  induction l with
  | nil => intro seen; simp [dedupFirstAux]
  | cons x xs ih =>
    intro seen
    rw [dedupFirstAux]
    split
    · exact ih
    · refine List.nodup_cons.mpr ⟨?_, ih⟩
      intro hx
      exact dedupFirstAux_not_mem_seen hx (List.mem_cons_self x seen)

theorem firstIdx_filter_lt {p : Str → Bool} : ∀ {L : List Str} {a b : Str},
    a ∈ L.filter p → b ∈ L.filter p →
    firstIdx a (L.filter p) < firstIdx b (L.filter p) →
    firstIdx a L < firstIdx b L := by
  intro L
  induction L with
  | nil => intro a b ha _ _; simp at ha
  | cons x xs ih =>
    intro a b ha hb hlt
    by_cases hp : p x = true
    · rw [List.filter_cons_of_pos hp] at ha hb hlt
      by_cases hxb : x = b
      · simp [firstIdx, hxb] at hlt
      · by_cases hxa : x = a
        · simp only [firstIdx, if_pos hxa, if_neg hxb]
          omega
        · simp only [firstIdx, if_neg hxa, if_neg hxb] at hlt ⊢
          have ha2 : a ∈ xs.filter p := by
            rcases List.mem_cons.mp ha with h | h
            · exact absurd h.symm hxa
            · exact h
          have hb2 : b ∈ xs.filter p := by
            rcases List.mem_cons.mp hb with h | h
            · exact absurd h.symm hxb
            · exact h
          have := ih ha2 hb2 (by omega)
          omega
    · rw [List.filter_cons_of_neg hp] at ha hb hlt
      have hxa : ¬x = a := by
        intro h
        exact hp (h ▸ (List.mem_filter.mp ha).2)
      have hxb : ¬x = b := by
        intro h
        exact hp (h ▸ (List.mem_filter.mp hb).2)
      simp only [firstIdx, if_neg hxa, if_neg hxb]
      have := ih ha hb hlt
      omega

/-- Claim C5: the entries returned by extract_keywords are ordered by
non-increasing frequency, with ties between equal-frequency keywords broken
by the order of first occurrence in the token stream (stated both for the
stop-word-filtered stream whose multiplicities the Counter records and for
the full token list of the normalized text), and repeated calls on the same
job text produce the identical output sequence. -/
theorem extract_keywords_ranking (wn : Str → Option (List (List Str))) (text : Str) :
    List.Pairwise (fun a b : KwInfo =>
      (b.count < a.count ∨
        (a.count = b.count ∧
          firstIdx a.keyword (extract_filtered text) <
            firstIdx b.keyword (extract_filtered text))) ∧
      (b.count < a.count ∨
        (a.count = b.count ∧
          firstIdx a.keyword (pyFindWords (clean_text text)) <
            firstIdx b.keyword (pyFindWords (clean_text text)))))
      (extract_keywords wn text) ∧
    extract_keywords wn text = extract_keywords wn text := by
  refine ⟨?_, rfl⟩
  rw [extract_keywords, List.pairwise_map]
  have hsorted : List.Pairwise (fun a b => mcBefore (extract_filtered text) a b = true)
      (sortMC (extract_filtered text) (dedupFirst (extract_filtered text))) :=
    sortMC_pairwise dedupFirstAux_nodup (fun w hw => mem_dedupFirst_subset hw)
  have hsorted30 := List.Pairwise.sublist (List.take_sublist 30 _) hsorted
  apply List.Pairwise.imp_of_mem ?_ hsorted30
  intro a b ha hb hr
  have ha2 : a ∈ (pyFindWords (clean_text text)).filter
      (fun w => !decide (w ∈ stop_words)) :=
    mem_dedupFirst_subset (mem_sortMC.mp (List.take_subset 30 _ ha))
  have hb2 : b ∈ (pyFindWords (clean_text text)).filter
      (fun w => !decide (w ∈ stop_words)) :=
    mem_dedupFirst_subset (mem_sortMC.mp (List.take_subset 30 _ hb))
  simp only [mcBefore, decide_eq_true_eq] at hr
  refine ⟨hr, ?_⟩
  rcases hr with h | ⟨hce, hfi⟩
  · exact Or.inl h
  · have hfi2 : firstIdx a ((pyFindWords (clean_text text)).filter
        (fun w => !decide (w ∈ stop_words))) <
      firstIdx b ((pyFindWords (clean_text text)).filter
        (fun w => !decide (w ∈ stop_words))) := hfi
    exact Or.inr ⟨hce, firstIdx_filter_lt ha2 hb2 hfi2⟩
